import Mathlib

/-!
Verification of the encrypted local store (`src/node/local_store.js`).

The store keeps a single JSON document `{global, services, sources}` in an
encrypted file.  JavaScript objects are embedded as association lists of
string keys (JS objects never hold duplicate keys, and property access
returns the unique binding); JSON values are embedded by the inductive type
`JVal`.  The external collaborators (the `vault-cipher` module, `fs`, and
the JSON builtins) are modelled as function parameters, placed exactly at
the points where the source calls into them.
-/

namespace LocalStore

/-- JSON values, as produced by the JSON parse builtin and consumed by the
canonicalizer `sort`.  Numbers are embedded as integers; no claim depends on
non-integral numerics. -/
inductive JVal where
  | null
  | bool (b : Bool)
  | num (n : Int)
  | str (s : String)
  | arr (elems : List JVal)
  | obj (fields : List (String × JVal))

/-- First-match lookup in an association list: embeds the JS property read
`object[k]` (`none` embeds `undefined`).  JS objects hold each key at most
once, so first-match agrees with property access. -/
def getKey : List (String × α) → String → Option α
  | [], _ => none
  | p :: rest, k => if p.1 = k then some p.2 else getKey rest k

/-- Embeds the JS truthiness test on `object[k]` for keys that map to an
object whenever present (objects are always truthy), that is, a key
presence test. -/
def hasKey (l : List (String × α)) (k : String) : Bool :=
  (getKey l k).isSome

/-- Embeds JS property assignment `object[k] = v`: replaces the binding in
place when the key is present, appends it otherwise. -/
def setKey : List (String × α) → String → α → List (String × α)
  | [], k, v => [(k, v)]
  | p :: rest, k, v => if p.1 = k then (k, v) :: rest else p :: setKey rest k v

/-- Embeds JS `delete object[k]`. -/
def eraseKey : List (String × α) → String → List (String × α)
  | [], _ => []
  | p :: rest, k => if p.1 = k then rest else p :: eraseKey rest k

/-- Defaulting combinator used to state per-key merge results: the first
mapping that binds the key wins. -/
def firstSome (a b : Option α) : Option α :=
  match a with
  | some v => some v
  | none => b

/-- Strict lexicographic comparison of strings by character code, embedding
the default JS string comparison used by `Object.keys(object).sort()`.  JS
compares UTF-16 code units; the embedding compares scalar values, which
agrees on every key the store handles. -/
def strLt : List Char → List Char → Bool
  | _, [] => false
  | [], _ :: _ => true
  | a :: as, b :: bs =>
    if a.toNat < b.toNat then true
    else if b.toNat < a.toNat then false
    else strLt as bs

/-- Key order for canonicalization: compare object fields by their keys. -/
def keyLe (p q : String × JVal) : Prop := strLt q.1.data p.1.data = false

instance : DecidableRel keyLe := fun p q =>
  inferInstanceAs (Decidable (strLt q.1.data p.1.data = false))

mutual

/-- Embeds `sort` (local_store.js lines 200-212), the canonicalizer applied
before every dump: mapping keys are recursively sorted, sequence element
order is preserved, primitives are returned unchanged.  The source sorts the
key strings and then recurses into the value at each key; since the sort
only permutes fields, this equals recursively sorting each field value and
then sorting the fields by key, which is the form used here. -/
def sort : JVal → JVal
  | .null => .null
  | .bool b => .bool b
  | .num n => .num n
  | .str s => .str s
  | .arr xs => .arr (sortElems xs)
  | .obj l => .obj (List.insertionSort keyLe (sortFields l))
termination_by structural v => v

/-- Recursive canonicalization of array elements (`object.map(sort)`). -/
def sortElems : List JVal → List JVal
  | [] => []
  | x :: xs => sort x :: sortElems xs
termination_by structural xs => xs

/-- Recursive canonicalization of the values of object fields. -/
def sortFields : List (String × JVal) → List (String × JVal)
  | [] => []
  | p :: rest => (p.1, sort p.2) :: sortFields rest
termination_by structural l => l

end

/-- A settings mapping: string keys to opaque JSON values. -/
abbrev Smap := List (String × JVal)

/-- The root persisted document `{global, services, sources}`.  The source
defaults each section to `{}` when the parsed file omits it (the
`config.global || {}` pattern); the embedding keeps every section present,
with the empty list embedding an absent or empty section. -/
structure Document where
  global : Smap
  services : List (String × Smap)
  sources : Smap

/-- The fresh empty document synthesized when the backing file is absent. -/
def emptyDoc : Document := ⟨[], [], []⟩

/-- The error taxonomy surfaced by the store.  `storeUnreadable` carries no
payload, exactly as the source builds one fixed `Error` object for both the
decryption-failure and the parse-failure branch of `load`. -/
inductive VaultError where
  | storeUnreadable
  | serviceNotConfigured (service : String)
deriving DecidableEq

/-- Modelled from the spec: `Vault.extend(target, source)` from `lib/vault`
is code of this repository that is not under `src/`; only its call sites
are.  The spec (sections 4.1 and 9) mandates that the save operations
realize last-write-wins per key given the call order
`extend(updated, settings); extend(updated, saved)`, and that
`serviceSettings` gives service keys precedence given the order
`extend(settings, serviceMap); extend(settings, global)`; both force the
helper to copy exactly those source keys that are absent from the target.
JS objects never hold duplicate keys, so the filter form below agrees with
the sequential key-by-key copy. -/
def extend (target source : List (String × α)) : List (String × α) :=
  target ++ source.filter (fun p => !hasKey target p.1)

/-- Embeds the merge step of `LocalStore.prototype.saveGlobals` (lines
80-93): `updated = {}; extend(updated, settings); extend(updated, saved);
config.global = updated`. -/
def saveGlobals (settings : Smap) (config : Document) : Document :=
  let saved := config.global
  let updated := extend (extend [] settings) saved
  { config with global := updated }

/-- Embeds the merge step of `LocalStore.prototype.saveService` (lines
95-110), the same merge scoped to `config.services[service]`. -/
def saveService (service : String) (settings : Smap) (config : Document) : Document :=
  let saved := (getKey config.services service).getD []
  let updated := extend (extend [] settings) saved
  { config with services := setKey config.services service updated }

/-- Embeds `LocalStore.prototype.deleteService` (lines 120-130): fail with
the service-not-configured error when `services[service]` is absent,
otherwise delete the key.  A `.ok` result is the document passed to `dump`;
a `.error` result reaches the callback before any dump. -/
def deleteService (service : String) (config : Document) : Except VaultError Document :=
  if !hasKey config.services service then
    .error (.serviceNotConfigured service)
  else
    .ok { config with services := eraseKey config.services service }

/-- Embeds `LocalStore.prototype.serviceSettings` (lines 132-145): `none`
embeds the `null` (Absent) result. -/
def serviceSettings (service : String) (includeGlobal : Bool) (config : Document) :
    Option Smap :=
  if !includeGlobal && !hasKey config.services service then
    none
  else
    some (extend (extend [] ((getKey config.services service).getD [])) config.global)

/-- The imported settings object handed to `LocalStore.prototype.import`. -/
structure ImportSettings where
  global : Smap
  services : List (String × Smap)

/-- Embeds the merge step of `LocalStore.prototype.import` (lines 183-190):
`extend(config.global, settings.global); extend(config.services,
settings.services)`, followed by a dump of the updated document. -/
def importSettings (settings : ImportSettings) (config : Document) : Document :=
  { config with
      global := extend config.global settings.global,
      services := extend config.services settings.services }

/-- The local pseudo-source name `LocalStore.LOCAL`. -/
def LOCAL : String := "local"

/-- JS line terminators, which the regex metacharacter dot does not match. -/
def lineTerm (c : Char) : Bool :=
  c = '\n' || c = '\r' || c = '\u2028' || c = '\u2029'

/-- Embeds the reserved-metadata test `/^__.+__$/.test(s)` from
`listSources`: two leading underscores, two trailing underscores, and at
least one character in between, none of which is a line terminator. -/
def metaKey (s : String) : Bool :=
  let cs := s.data
  decide (5 ≤ cs.length) && cs.take 2 == ['_', '_']
    && cs.drop (cs.length - 2) == ['_', '_']
    && ((cs.drop 2).take (cs.length - 4)).all (fun c => !lineTerm c)

/-- JS truthiness of a JSON value. -/
def jsTruthy : JVal → Bool
  | .null => false
  | .bool b => b
  | .num n => n != 0
  | .str s => s != ""
  | .arr _ => true
  | .obj _ => true

/-- Embeds `LocalStore.prototype.listSources` (lines 37-50).  The `source`
argument embeds the `this._source` override installed by `setSource` (the
`s = ""` case is falsy in JS and skipped by `||`).  The returned current
source is a JS value: the source returns whatever `this._source` or
`sources.__current__` held.  Indexing `sources[current]` with a non-string
`current` is embedded as a miss; the store itself only ever stores string
source names. -/
def listSources (source : Option String) (config : Document) : List String × JVal :=
  let sources := config.sources
  let sourceNames := (sources.map Prod.fst).filter (fun s => !metaKey s)
  let cand : Option JVal :=
    match source with
    | some s => if s = "" then getKey sources "__current__" else some (.str s)
    | none => getKey sources "__current__"
  let current : JVal :=
    match cand with
    | none => .str LOCAL
    | some v =>
      if !jsTruthy v then .str LOCAL
      else
        match v with
        | .str s => if jsTruthy ((getKey sources s).getD .null) then .str s else .str LOCAL
        | _ => .str LOCAL
  (sourceNames ++ [LOCAL], current)

/-- The environment of one `load` file read (lines 147-170).  `decrypt`
embeds the `vault-cipher` decrypt callback (`none` embeds an error
argument), `parse` embeds the JSON parse builtin (`none` embeds a thrown
parse error), and `file` embeds the `fs.readFile` outcome (`none` embeds a
read error, in particular an absent file). -/
structure LoadEnv where
  decrypt : String → Option String
  parse : String → Option Document
  file : Option String

/-- Embeds `LocalStore.prototype.load` (lines 147-170) as a function of the
cache flag, the current `_configCache` content, and the read environment.
It returns the callback outcome together with the `_configCache` content
after the call: the cache is consulted only when caching is enabled, and is
written exactly by the successful decrypt-and-parse branch. -/
def load (cacheEnabled : Bool) (cache : Option Document) (env : LoadEnv) :
    Except VaultError Document × Option Document :=
  match cacheEnabled, cache with
  | true, some c => (.ok c, some c)
  | _, _ =>
    match env.file with
    | none => (.ok emptyDoc, cache)
    | some content =>
      match env.decrypt content with
      | none => (.error .storeUnreadable, cache)
      | some plaintext =>
        match env.parse plaintext with
        | none => (.error .storeUnreadable, cache)
        | some config => (.ok config, some config)

/-- The environment of one `dump` call (lines 172-181).  `stringify` embeds
the JSON stringify builtin, `encrypt` embeds the `vault-cipher` encrypt
callback, and `write` embeds `fs.writeFile`, which receives `none` exactly
when the encrypt callback was handed an error and `ciphertext` is
`undefined`; it returns the error argument later handed to the `dump`
callback (`none` embeds a successful write). -/
structure DumpEnv (ε : Type) where
  stringify : JVal → String
  encrypt : String → Except ε String
  write : Option String → Option ε

/-- Embeds `LocalStore.prototype.dump` (lines 172-181): canonicalize,
stringify, encrypt, write.  The encrypt callback in the source never
inspects its error argument: the write proceeds regardless, and the value
handed to the `dump` callback is exactly the `fs.writeFile` outcome. -/
def dump (env : DumpEnv ε) (config : JVal) : Option ε :=
  let canon := sort config
  let json := env.stringify canon
  let ciphertext : Option String :=
    match env.encrypt json with
    | .ok c => some c
    | .error _ => none
  env.write ciphertext

/-- State of one store instance for whole read-modify-write transactions:
the persisted document (plaintext view, with the cipher round-trip
abstracted; `none` embeds an absent file) and the `_configCache` content. -/
structure StoreState where
  file : Option Document
  cache : Option Document

/-- Outcome of the load phase of a transaction: the loaded document, the
store state after the load, and whether the cache slot now aliases the
loaded document (in the source the cache holds the very object handed to
the mutating operation, except when the file was absent). -/
structure LoadOutcome where
  config : Document
  state : StoreState
  aliased : Bool

/-- The load phase of a transaction over `StoreState`, mirroring `load`:
cache hit when enabled, fresh empty document on an absent file (not
cached), parsed document otherwise (cached). -/
def loadState (cacheEnabled : Bool) (st : StoreState) : LoadOutcome :=
  match cacheEnabled, st.cache with
  | true, some c => ⟨c, st, true⟩
  | _, _ =>
    match st.file with
    | none => ⟨emptyDoc, st, false⟩
    | some d => ⟨d, { st with cache := some d }, true⟩

/-- One whole named transaction (load, mutate, dump), as every mutating
operation of the store performs it: on a `.error` outcome of the operation
the callback fires before any dump and the state is exactly the post-load
state; on `.ok` the mutated document is persisted, and the cache holds it
exactly when the cache slot aliased the document the operation mutated in
place. -/
def runTransaction (cacheEnabled : Bool) (op : Document → Except VaultError Document)
    (st : StoreState) : Except VaultError Unit × StoreState :=
  let out := loadState cacheEnabled st
  match op out.config with
  | .error e => (.error e, out.state)
  | .ok d => (.ok (), ⟨some d, if out.aliased then some d else out.state.cache⟩)

/-! ### Order facts about the key comparison -/

theorem strLt_asymm : ∀ a b : List Char, strLt a b = true → strLt b a = false := by
  intro a
  induction a with
  | nil =>
    intro b h
    cases b with
    | nil => simp [strLt] at h
    | cons y ys => simp [strLt]
  | cons x xs ih =>
    intro b h
    cases b with
    | nil => simp [strLt] at h
    | cons y ys =>
      simp only [strLt] at h ⊢
      by_cases h1 : x.toNat < y.toNat
      · have h2 : ¬ y.toNat < x.toNat := by omega
        simp [h1, h2]
      · by_cases h2 : y.toNat < x.toNat
        · simp [h1, h2] at h
        · simp [h1, h2] at h ⊢
          exact ih ys h

theorem strLt_conn : ∀ a b : List Char, strLt a b = false → strLt b a = false → a = b := by
  intro a
  induction a with
  | nil =>
    intro b h1 _
    cases b with
    | nil => rfl
    | cons y ys => simp [strLt] at h1
  | cons x xs ih =>
    intro b h1 h2
    cases b with
    | nil => simp [strLt] at h2
    | cons y ys =>
      simp only [strLt] at h1 h2
      by_cases c1 : x.toNat < y.toNat
      · simp [c1] at h1
      · by_cases c2 : y.toNat < x.toNat
        · simp [c1, c2] at h2
        · simp [c1, c2] at h1 h2
          have hx : x = y := by
            have hn : x.toNat = y.toNat := by omega
            have := congrArg Char.ofNat hn
            rwa [Char.ofNat_toNat, Char.ofNat_toNat] at this
          rw [hx, ih ys h1 h2]

theorem strLt_trans :
    ∀ a b c : List Char, strLt a b = true → strLt b c = true → strLt a c = true := by
  intro a
  induction a with
  | nil =>
    intro b c h1 h2
    cases b with
    | nil => simp [strLt] at h1
    | cons y ys =>
      cases c with
      | nil => simp [strLt] at h2
      | cons z zs => simp [strLt]
  | cons x xs ih =>
    intro b c h1 h2
    cases b with
    | nil => simp [strLt] at h1
    | cons y ys =>
      cases c with
      | nil => simp [strLt] at h2
      | cons z zs =>
        simp only [strLt] at h1 h2 ⊢
        by_cases c1 : x.toNat < y.toNat <;> by_cases c2 : y.toNat < z.toNat
        · have : x.toNat < z.toNat := by omega
          simp [this]
        · by_cases c3 : z.toNat < y.toNat
          · simp [c2, c3] at h2
          · have : x.toNat < z.toNat := by omega
            simp [this]
        · by_cases c3 : y.toNat < x.toNat
          · simp [c1, c3] at h1
          · have : x.toNat < z.toNat := by omega
            simp [this]
        · by_cases c3 : y.toNat < x.toNat
          · simp [c1, c3] at h1
          · by_cases c4 : z.toNat < y.toNat
            · simp [c2, c4] at h2
            · simp [c1, c3] at h1
              simp [c2, c4] at h2
              have g1 : ¬ x.toNat < z.toNat := by omega
              have g2 : ¬ z.toNat < x.toNat := by omega
              simp [g1, g2]
              exact ih ys zs h1 h2

instance : IsTotal (String × JVal) keyLe := by
  constructor
  intro p q
  by_cases h : strLt q.1.data p.1.data = true
  · right
    exact strLt_asymm _ _ h
  · left
    simpa [keyLe] using h

instance : IsTrans (String × JVal) keyLe := by
  constructor
  intro a b c h1 h2
  unfold keyLe at h1 h2 ⊢
  cases hbc : strLt b.1.data c.1.data with
  | true =>
    cases hca : strLt c.1.data a.1.data with
    | true =>
      have := strLt_trans _ _ _ hbc hca
      rw [this] at h1
      exact absurd h1 (by simp)
    | false => rfl
  | false =>
    have hb : b.1.data = c.1.data := strLt_conn _ _ hbc h2
    rw [← hb]
    exact h1

/-- Key equality from mutual non-strictness of the comparison. -/
theorem key_eq_of_keyLe_keyLe {p q : String × JVal} (h1 : keyLe p q) (h2 : keyLe q p) :
    p.1 = q.1 := by
  have hd : p.1.data = q.1.data := strLt_conn _ _ h2 h1
  cases hp : p.1 with
  | mk l1 =>
    cases hq : q.1 with
    | mk l2 =>
      rw [hp, hq] at hd
      exact congrArg String.mk (by simpa using hd)

/-! ### Association list lemmas -/

theorem getKey_append (l₁ l₂ : List (String × α)) (k : String) :
    getKey (l₁ ++ l₂) k = firstSome (getKey l₁ k) (getKey l₂ k) := by
  induction l₁ with
  | nil => simp [getKey, firstSome]
  | cons p rest ih =>
    by_cases h : p.1 = k
    · simp [getKey, h, firstSome]
    · simp [getKey, h, ih, List.append_eq]

theorem getKey_eq_none_of_hasKey_false {l : List (String × α)} {k : String}
    (h : hasKey l k = false) : getKey l k = none := by
  unfold hasKey at h
  cases hk : getKey l k with
  | none => rfl
  | some v => rw [hk] at h; simp at h

theorem getKey_filter_not_hasKey (t s : List (String × α)) (k : String)
    (h : hasKey t k = false) :
    getKey (s.filter (fun p => !hasKey t p.1)) k = getKey s k := by
  induction s with
  | nil => rfl
  | cons p rest ih =>
    by_cases hk : p.1 = k
    · subst hk
      have hp : (!hasKey t p.1) = true := by rw [h]; rfl
      simp [List.filter, hp, getKey]
    · cases hp : (!hasKey t p.1) with
      | true => simp [List.filter, hp, getKey, hk, ih]
      | false => simp [List.filter, hp, getKey, hk, ih]

theorem getKey_extend (t s : List (String × α)) (k : String) :
    getKey (extend t s) k = firstSome (getKey t k) (getKey s k) := by
  rw [extend, getKey_append]
  cases h : getKey t k with
  | some v => simp [firstSome]
  | none =>
    have hh : hasKey t k = false := by simp [hasKey, h]
    simp [firstSome, getKey_filter_not_hasKey _ _ _ hh]

theorem extend_nil (s : List (String × α)) : extend [] s = s := by
  have : ∀ p : String × α, (!hasKey ([] : List (String × α)) p.1) = true := by
    intro p; rfl
  simp [extend, List.filter_eq_self.mpr (fun p _ => this p)]

theorem getKey_setKey_self (l : List (String × α)) (k : String) (v : α) :
    getKey (setKey l k v) k = some v := by
  induction l with
  | nil => simp [setKey, getKey]
  | cons p rest ih =>
    by_cases h : p.1 = k
    · simp [setKey, h, getKey]
    · simp [setKey, h, getKey, ih]

theorem getKey_eq_none_of_not_mem {l : List (String × α)} {k : String}
    (h : k ∉ l.map Prod.fst) : getKey l k = none := by
  induction l with
  | nil => rfl
  | cons p rest ih =>
    simp only [List.map_cons, List.mem_cons] at h
    push_neg at h
    have hne : ¬ p.1 = k := fun hh => h.1 hh.symm
    rw [getKey, if_neg hne]
    exact ih h.2

theorem getKey_eraseKey_self {l : List (String × α)} {k : String}
    (h : (l.map Prod.fst).Nodup) : getKey (eraseKey l k) k = none := by
  induction l with
  | nil => rfl
  | cons p rest ih =>
    simp only [List.map_cons, List.nodup_cons] at h
    by_cases hk : p.1 = k
    · rw [eraseKey, if_pos hk]
      exact getKey_eq_none_of_not_mem (hk ▸ h.1)
    · rw [eraseKey, if_neg hk, getKey, if_neg hk]
      exact ih h.2

/-! ### Canonicalizer theory -/

theorem sortElems_eq_map (xs : List JVal) : sortElems xs = xs.map sort := by
  induction xs with
  | nil => simp [sortElems]
  | cons x rest ih => simp [sortElems, ih]

theorem sortFields_eq_map (l : List (String × JVal)) :
    sortFields l = l.map (fun p => (p.1, sort p.2)) := by
  induction l with
  | nil => simp [sortFields]
  | cons p rest ih => simp [sortFields, ih]

theorem map_fst_sortFields (l : List (String × JVal)) :
    (sortFields l).map Prod.fst = l.map Prod.fst := by
  rw [sortFields_eq_map, List.map_map]
  rfl

theorem one_le_sizeOf (v : JVal) : 1 ≤ sizeOf v := by
  cases v <;> simp_arith

theorem sizeOf_val_lt_obj {l : List (String × JVal)} {p : String × JVal} (h : p ∈ l) :
    sizeOf p.2 < sizeOf (JVal.obj l) := by
  have h1 := List.sizeOf_lt_of_mem h
  cases p with
  | mk k v =>
    simp only [Prod.mk.sizeOf_spec] at h1
    simp only [JVal.obj.sizeOf_spec]
    omega

theorem sizeOf_elem_lt_arr {xs : List JVal} {x : JVal} (h : x ∈ xs) :
    sizeOf x < sizeOf (JVal.arr xs) := by
  have h1 := List.sizeOf_lt_of_mem h
  simp only [JVal.arr.sizeOf_spec]
  omega

theorem map_eq_self_of {l : List α} {f : α → α} (h : ∀ a ∈ l, f a = a) : l.map f = l := by
  induction l with
  | nil => rfl
  | cons x rest ih =>
    simp only [List.map_cons]
    rw [h x (List.mem_cons_self x rest), ih (fun a ha => h a (List.mem_cons_of_mem _ ha))]

theorem sort_sort_bounded : ∀ n : Nat, ∀ v : JVal, sizeOf v ≤ n → sort (sort v) = sort v := by
  intro n
  induction n with
  | zero =>
    intro v h
    have := one_le_sizeOf v
    omega
  | succ n ih =>
    intro v h
    cases v with
    | null => rfl
    | bool b => rfl
    | num m => rfl
    | str s => rfl
    | arr xs =>
      simp only [sort, sortElems_eq_map, List.map_map]
      congr 1
      apply List.map_congr_left
      intro x hx
      have hs : sizeOf x ≤ n := by
        have := sizeOf_elem_lt_arr hx
        omega
      simpa [Function.comp] using ih x hs
    | obj l =>
      simp only [sort]
      have hfix : sortFields (List.insertionSort keyLe (sortFields l))
          = List.insertionSort keyLe (sortFields l) := by
        rw [sortFields_eq_map]
        apply map_eq_self_of
        intro p hp
        have hp' : p ∈ sortFields l :=
          (List.perm_insertionSort keyLe (sortFields l)).mem_iff.mp hp
        rw [sortFields_eq_map] at hp'
        obtain ⟨q, hq, rfl⟩ := List.mem_map.mp hp'
        have hs : sizeOf q.2 ≤ n := by
          have := sizeOf_val_lt_obj hq
          omega
        simp [ih q.2 hs]
      rw [hfix,
        List.Sorted.insertionSort_eq (List.sorted_insertionSort keyLe (sortFields l))]

/-- Idempotence of the canonicalizer. -/
theorem sort_sort (v : JVal) : sort (sort v) = sort v :=
  sort_sort_bounded (sizeOf v) v le_rfl

/-- Sorted lists of fields that are permutations of each other and have
duplicate-free keys are equal. -/
theorem eq_of_perm_sorted_nodupKeys :
    ∀ a b : List (String × JVal), a.Perm b → a.Pairwise keyLe → b.Pairwise keyLe →
      (a.map Prod.fst).Nodup → a = b := by
  intro a
  induction a with
  | nil =>
    intro b hp _ _ _
    exact hp.nil_eq
  | cons p a' ih =>
    intro b hp hsa hsb hnd
    have hnd2 : p.1 ∉ a'.map Prod.fst ∧ (a'.map Prod.fst).Nodup := by
      rw [List.map_cons] at hnd
      exact List.nodup_cons.mp hnd
    cases b with
    | nil => exact absurd hp.symm.nil_eq (by simp)
    | cons q b' =>
      have hq : q = p := by
        have hqmem : q ∈ p :: a' := hp.mem_iff.mpr (List.mem_cons_self q b')
        rcases List.mem_cons.mp hqmem with h1 | h1
        · exact h1
        · have hpq : keyLe p q := (List.pairwise_cons.mp hsa).1 q h1
          have hpmem : p ∈ q :: b' := hp.mem_iff.mp (List.mem_cons_self p a')
          rcases List.mem_cons.mp hpmem with h2 | h2
          · exact h2.symm
          · have hqp : keyLe q p := (List.pairwise_cons.mp hsb).1 p h2
            have hkey : p.1 = q.1 := key_eq_of_keyLe_keyLe hpq hqp
            exfalso
            have hmemk : p.1 ∈ a'.map Prod.fst := by
              rw [hkey]
              exact List.mem_map_of_mem Prod.fst h1
            exact hnd2.1 hmemk
      subst hq
      have hperm' : a'.Perm b' := hp.cons_inv
      have ha' := (List.pairwise_cons.mp hsa).2
      have hb' := (List.pairwise_cons.mp hsb).2
      rw [ih b' hperm' ha' hb' hnd2.2]

theorem insertionSort_eq_of_perm {x y : List (String × JVal)} (hxy : x.Perm y)
    (hnd : (x.map Prod.fst).Nodup) :
    List.insertionSort keyLe x = List.insertionSort keyLe y := by
  apply eq_of_perm_sorted_nodupKeys
  · exact (List.perm_insertionSort keyLe x).trans
      (hxy.trans (List.perm_insertionSort keyLe y).symm)
  · exact List.sorted_insertionSort keyLe x
  · exact List.sorted_insertionSort keyLe y
  · exact (((List.perm_insertionSort keyLe x).map Prod.fst).nodup_iff).mpr hnd

/-- Membership test on key lists, used to detect duplicate keys. -/
def hasStr : List String → String → Bool
  | [], _ => false
  | x :: rest, k => if x = k then true else hasStr rest k

/-- Duplicate-freedom of a key list. -/
def nodupStr : List String → Bool
  | [] => true
  | k :: rest => !hasStr rest k && nodupStr rest

theorem not_mem_of_hasStr_false {l : List String} {k : String} (h : hasStr l k = false) :
    k ∉ l := by
  induction l with
  | nil => simp
  | cons x rest ih =>
    simp only [hasStr] at h
    by_cases hx : x = k
    · rw [if_pos hx] at h
      exact absurd h (by simp)
    · rw [if_neg hx] at h
      simp only [List.mem_cons]
      rintro (h1 | h1)
      · exact hx h1.symm
      · exact ih h h1

theorem nodupStr_nodup : ∀ l : List String, nodupStr l = true → l.Nodup := by
  intro l
  induction l with
  | nil => intro _; simp
  | cons k rest ih =>
    intro h
    simp only [nodupStr, Bool.and_eq_true, Bool.not_eq_true'] at h
    exact List.nodup_cons.mpr ⟨not_mem_of_hasStr_false h.1, ih h.2⟩

mutual

/-- Every object occurring in the value has a duplicate-free key list, as
every JS object and hence every JSON parse result does. -/
def nodupKeys : JVal → Bool
  | .null => true
  | .bool _ => true
  | .num _ => true
  | .str _ => true
  | .arr xs => nodupKeysElems xs
  | .obj l => nodupStr (l.map Prod.fst) && nodupKeysFields l
termination_by structural v => v

/-- Pointwise `nodupKeys` over array elements. -/
def nodupKeysElems : List JVal → Bool
  | [] => true
  | x :: xs => nodupKeys x && nodupKeysElems xs
termination_by structural xs => xs

/-- Pointwise `nodupKeys` over the values of object fields. -/
def nodupKeysFields : List (String × JVal) → Bool
  | [] => true
  | p :: rest => nodupKeys p.2 && nodupKeysFields rest
termination_by structural l => l

end

theorem nodupKeysElems_mem {xs : List JVal} {x : JVal} (hm : x ∈ xs)
    (h : nodupKeysElems xs = true) : nodupKeys x = true := by
  induction xs with
  | nil => cases hm
  | cons y rest ih =>
    simp only [nodupKeysElems, Bool.and_eq_true] at h
    rcases List.mem_cons.mp hm with h1 | h1
    · rw [h1]; exact h.1
    · exact ih h1 h.2

theorem nodupKeysFields_mem {l : List (String × JVal)} {p : String × JVal} (hm : p ∈ l)
    (h : nodupKeysFields l = true) : nodupKeys p.2 = true := by
  induction l with
  | nil => cases hm
  | cons q rest ih =>
    simp only [nodupKeysFields, Bool.and_eq_true] at h
    rcases List.mem_cons.mp hm with h1 | h1
    · rw [h1]; exact h.1
    · exact ih h1 h.2

mutual

/-- Two JSON values that agree up to the insertion order of object fields:
identical primitives, elementwise related array elements in order, and
object field lists that are permutations of field lists with the same keys
in the same order and related values. -/
inductive KeyPerm : JVal → JVal → Prop where
  | null : KeyPerm .null .null
  | bool (b : Bool) : KeyPerm (.bool b) (.bool b)
  | num (n : Int) : KeyPerm (.num n) (.num n)
  | str (s : String) : KeyPerm (.str s) (.str s)
  | arr {xs ys : List JVal} : KeyPermElems xs ys → KeyPerm (.arr xs) (.arr ys)
  | obj {l mid m : List (String × JVal)} :
      KeyPermFields l mid → mid.Perm m → KeyPerm (.obj l) (.obj m)

/-- Pointwise `KeyPerm` over array elements, preserving order. -/
inductive KeyPermElems : List JVal → List JVal → Prop where
  | nil : KeyPermElems [] []
  | cons {x y : JVal} {xs ys : List JVal} :
      KeyPerm x y → KeyPermElems xs ys → KeyPermElems (x :: xs) (y :: ys)

/-- Pointwise `KeyPerm` over object fields: equal keys, related values. -/
inductive KeyPermFields : List (String × JVal) → List (String × JVal) → Prop where
  | nil : KeyPermFields [] []
  | cons {k : String} {x y : JVal} {l m : List (String × JVal)} :
      KeyPerm x y → KeyPermFields l m → KeyPermFields ((k, x) :: l) ((k, y) :: m)

end

theorem keyPermFields_map_fst :
    ∀ {l m : List (String × JVal)}, KeyPermFields l m → l.map Prod.fst = m.map Prod.fst := by
  intro l
  induction l with
  | nil =>
    intro m h
    cases h
    rfl
  | cons p l' ih =>
    intro m h
    cases h with
    | cons hxy htail => simp [ih htail]

theorem keyPermElems_map_sort :
    ∀ {xs ys : List JVal}, KeyPermElems xs ys →
      (∀ x y, x ∈ xs → KeyPerm x y → sort x = sort y) → xs.map sort = ys.map sort := by
  intro xs
  induction xs with
  | nil =>
    intro ys h _
    cases h
    rfl
  | cons x xs' ih =>
    intro ys h hall
    cases h with
    | cons hxy htail =>
      simp only [List.map_cons]
      rw [hall _ _ (List.mem_cons_self _ _) hxy,
        ih htail (fun a b ha hr => hall a b (List.mem_cons_of_mem _ ha) hr)]

theorem keyPermFields_sortFields :
    ∀ {l m : List (String × JVal)}, KeyPermFields l m →
      (∀ p y, p ∈ l → KeyPerm p.2 y → sort p.2 = sort y) → sortFields l = sortFields m := by
  intro l
  induction l with
  | nil =>
    intro m h _
    cases h
    rfl
  | cons p l' ih =>
    intro m h hall
    cases h with
    | cons hxy htail =>
      rename_i k x y m'
      simp only [sortFields]
      rw [hall (k, x) y (List.mem_cons_self _ _) hxy,
        ih htail (fun q z hq hr => hall q z (List.mem_cons_of_mem _ hq) hr)]

theorem sort_keyPerm_bounded :
    ∀ n : Nat, ∀ v w : JVal, sizeOf v ≤ n → nodupKeys v = true → KeyPerm v w →
      sort v = sort w := by
  intro n
  induction n with
  | zero =>
    intro v w h _ _
    have := one_le_sizeOf v
    omega
  | succ n ih =>
    intro v w h hnd hkp
    cases hkp with
    | null => rfl
    | bool b => rfl
    | num m => rfl
    | str s => rfl
    | arr hf =>
      simp only [sort, sortElems_eq_map]
      congr 1
      apply keyPermElems_map_sort hf
      intro x y hx hr
      have hs : sizeOf x ≤ n := by
        have := sizeOf_elem_lt_arr hx
        omega
      exact ih x y hs (nodupKeysElems_mem hx (by simpa [nodupKeys] using hnd)) hr
    | obj hf hperm =>
      simp only [sort]
      congr 1
      rename_i l mid m
      have hnd' : nodupStr (l.map Prod.fst) = true ∧ nodupKeysFields l = true := by
        simpa [nodupKeys, Bool.and_eq_true] using hnd
      have h1 : sortFields l = sortFields mid := by
        apply keyPermFields_sortFields hf
        intro p y hp hr
        have hs : sizeOf p.2 ≤ n := by
          have := sizeOf_val_lt_obj hp
          omega
        exact ih p.2 y hs (nodupKeysFields_mem hp hnd'.2) hr
      rw [h1]
      apply insertionSort_eq_of_perm
      · rw [sortFields_eq_map, sortFields_eq_map]
        exact hperm.map _
      · rw [map_fst_sortFields, ← keyPermFields_map_fst hf]
        exact nodupStr_nodup _ hnd'.1

/-- Order-insensitivity of the canonicalizer on values with duplicate-free
object keys. -/
theorem sort_keyPerm {v w : JVal} (hnd : nodupKeys v = true) (hkp : KeyPerm v w) :
    sort v = sort w :=
  sort_keyPerm_bounded (sizeOf v) v w le_rfl hnd hkp

/-! ### Transaction state lemmas -/

theorem loadState_file (cacheEnabled : Bool) (st : StoreState) :
    (loadState cacheEnabled st).state.file = st.file := by
  unfold loadState
  cases cacheEnabled <;> cases hc : st.cache <;> cases hf : st.file <;> simp [hc, hf]

theorem loadState_cache (cacheEnabled : Bool) (st : StoreState) :
    (loadState cacheEnabled st).state.cache = st.cache
      ∨ (loadState cacheEnabled st).state.cache = st.file := by
  unfold loadState
  cases cacheEnabled <;> cases hc : st.cache <;> cases hf : st.file <;> simp [hc, hf]

/-! ### Claims -/

/-- C1: for every stored document and settings mapping, `saveGlobals`
(and `saveService`, scoped to `services[service]`) replaces the saved
mapping with a per-key merge in which a key present in the new settings
takes the new value on conflict with a previously saved key, and a
previously saved key not present in the new settings is retained
(last-write-wins per key). -/
theorem save_lastWriteWins (config : Document) (settings : Smap) (service k : String) :
    getKey (saveGlobals settings config).global k
        = firstSome (getKey settings k) (getKey config.global k)
    ∧ getKey ((getKey (saveService service settings config).services service).getD []) k
        = firstSome (getKey settings k)
            (getKey ((getKey config.services service).getD []) k) := by
  constructor
  · show getKey (extend (extend [] settings) config.global) k = _
    rw [extend_nil, getKey_extend]
  · show getKey ((getKey (setKey config.services service
        (extend (extend [] settings) ((getKey config.services service).getD []))) service).getD
          []) k = _
    rw [getKey_setKey_self, Option.getD_some, extend_nil, getKey_extend]

/-- C2 counterexample: importing `global` holding the binding of `user` to
the string `bob` into a document whose saved global mapping binds `user` to
`alice` keeps `alice`, while `saveGlobals` with the same new settings takes
`bob`: `import` does not use the same per-key merge precedence as
`saveGlobals`, and an imported key does not override a previously saved
key on conflict. -/
theorem importSettings_new_key_loses :
    getKey (importSettings ⟨[("user", .str "bob")], []⟩
        ⟨[("user", .str "alice")], [], []⟩).global "user" = some (.str "alice")
    ∧ getKey (saveGlobals [("user", .str "bob")]
        ⟨[("user", .str "alice")], [], []⟩).global "user" = some (.str "bob") :=
  ⟨rfl, rfl⟩

/-- C2 amended: `import(settings)` merges `settings.global` into `global`
and `settings.services` into `services` per top-level key with the opposite
precedence to `saveGlobals`/`saveService`: a previously saved key is
retained with its saved value on conflict, and an imported key absent from
the saved mapping is added; then the document is dumped. -/
theorem importSettings_savedWins (config : Document) (settings : ImportSettings)
    (k : String) :
    getKey (importSettings settings config).global k
        = firstSome (getKey config.global k) (getKey settings.global k)
    ∧ getKey (importSettings settings config).services k
        = firstSome (getKey config.services k) (getKey settings.services k) := by
  constructor
  · show getKey (extend config.global settings.global) k = _
    rw [getKey_extend]
  · show getKey (extend config.services settings.services) k = _
    rw [getKey_extend]

/-- C3: when `load` reads the file successfully, a decryption failure and a
parse failure of the decrypted plaintext both fail with the single
`storeUnreadable` error; the reported error value is identical in the two
cases, so the underlying causes are indistinguishable in it. -/
theorem load_collapses_unreadable (cacheEnabled : Bool) (env : LoadEnv) (content : String)
    (hfile : env.file = some content) :
    (env.decrypt content = none →
       load cacheEnabled none env = (.error .storeUnreadable, none))
    ∧ (∀ plaintext, env.decrypt content = some plaintext → env.parse plaintext = none →
       load cacheEnabled none env = (.error .storeUnreadable, none)) := by
  constructor
  · intro hdec
    cases cacheEnabled <;> simp [load, hfile, hdec]
  · intro pt hdec hparse
    cases cacheEnabled <;> simp [load, hfile, hdec, hparse]

/-- Witness for C3 at concrete environments: one whose decryption fails and
one whose plaintext fails to parse, both reporting the same error. -/
theorem load_collapses_unreadable_witness :
    load false none ⟨fun _ => none, fun _ => none, some "ct"⟩
        = (.error .storeUnreadable, none)
    ∧ load false none ⟨fun _ => some "pt", fun _ => none, some "ct"⟩
        = (.error .storeUnreadable, none) :=
  ⟨(load_collapses_unreadable false ⟨fun _ => none, fun _ => none, some "ct"⟩ "ct" rfl).1
      rfl,
   (load_collapses_unreadable false ⟨fun _ => some "pt", fun _ => none, some "ct"⟩ "ct"
      rfl).2 "pt" rfl rfl⟩

/-- C4: when the file read reports an error (in particular an absent file),
`load` succeeds with the fresh empty document and does not return an
error. -/
theorem load_absent_file (cacheEnabled : Bool) (env : LoadEnv) (hfile : env.file = none) :
    load cacheEnabled none env
      = (.ok { global := [], services := [], sources := [] }, none) := by
  cases cacheEnabled <;> simp [load, hfile, emptyDoc]

/-- Witness for C4 at a concrete environment whose file read fails. -/
theorem load_absent_file_witness :
    load true none ⟨fun _ => none, fun _ => none, none⟩
      = (.ok { global := [], services := [], sources := [] }, none) :=
  load_absent_file true ⟨fun _ => none, fun _ => none, none⟩ rfl

/-- C5: a `deleteService(service)` transaction on a store whose loaded
document has no `services[service]` fails with the service-not-configured
error and performs no write: the persisted file is unchanged and the cache
holds at most the unmutated persisted document; on a document with
`services[service]` present it removes exactly that key and dumps the
updated document. -/
theorem deleteService_contract (cacheEnabled : Bool) (st : StoreState) (service : String) :
    (hasKey (loadState cacheEnabled st).config.services service = false →
       runTransaction cacheEnabled (deleteService service) st
           = (.error (.serviceNotConfigured service), (loadState cacheEnabled st).state)
         ∧ (loadState cacheEnabled st).state.file = st.file
         ∧ ((loadState cacheEnabled st).state.cache = st.cache
             ∨ (loadState cacheEnabled st).state.cache = st.file))
    ∧ (hasKey (loadState cacheEnabled st).config.services service = true →
       (runTransaction cacheEnabled (deleteService service) st).1 = .ok ()
         ∧ (runTransaction cacheEnabled (deleteService service) st).2.file
             = some { (loadState cacheEnabled st).config with
                 services := eraseKey (loadState cacheEnabled st).config.services service }
         ∧ (((loadState cacheEnabled st).config.services.map Prod.fst).Nodup →
             getKey (eraseKey (loadState cacheEnabled st).config.services service) service
               = none)) := by
  constructor
  · intro habs
    refine ⟨?_, loadState_file cacheEnabled st, loadState_cache cacheEnabled st⟩
    simp [runTransaction, deleteService, habs]
  · intro hpres
    have hop : deleteService service (loadState cacheEnabled st).config
        = .ok { (loadState cacheEnabled st).config with
            services := eraseKey (loadState cacheEnabled st).config.services service } := by
      simp [deleteService, hpres]
    refine ⟨?_, ?_, ?_⟩
    · simp [runTransaction, hop]
    · simp [runTransaction, hop]
    · intro hnd
      exact getKey_eraseKey_self hnd

/-- Witness for C5 at concrete store states: deleting a missing service
fails without a write, deleting a present service persists its removal. -/
theorem deleteService_contract_witness :
    (runTransaction false (deleteService "missing")
        ⟨some ⟨[], [("github", [("user", .str "alice")])], []⟩, none⟩).1
        = .error (.serviceNotConfigured "missing")
    ∧ (runTransaction false (deleteService "missing")
        ⟨some ⟨[], [("github", [("user", .str "alice")])], []⟩, none⟩).2.file
        = some ⟨[], [("github", [("user", .str "alice")])], []⟩
    ∧ (runTransaction false (deleteService "github")
        ⟨some ⟨[], [("github", [("user", .str "alice")])], []⟩, none⟩).2.file
        = some ⟨[], [], []⟩
    ∧ getKey (eraseKey [("github", [("user", JVal.str "alice")])] "github") "github"
        = none := by
  refine ⟨?_, ?_, ?_, ?_⟩
  · exact congrArg Prod.fst
      ((deleteService_contract false
        ⟨some ⟨[], [("github", [("user", .str "alice")])], []⟩, none⟩ "missing").1 rfl).1
  · have h := ((deleteService_contract false
        ⟨some ⟨[], [("github", [("user", .str "alice")])], []⟩, none⟩ "missing").1 rfl).1
    exact congrArg (fun r => r.2.file) h
  · exact ((deleteService_contract false
        ⟨some ⟨[], [("github", [("user", .str "alice")])], []⟩, none⟩ "github").2 rfl).2.1
  · exact ((deleteService_contract false
        ⟨some ⟨[], [("github", [("user", .str "alice")])], []⟩, none⟩ "github").2 rfl).2.2
      (by decide)

/-- C6: `serviceSettings(service, includeGlobal)` returns Absent exactly
when `includeGlobal` is false and the service has no stored settings; in
every other case it returns the per-service mapping merged over `global`,
with a service key taking precedence over a global key on conflict. -/
theorem serviceSettings_contract (config : Document) (service : String)
    (includeGlobal : Bool) :
    (serviceSettings service includeGlobal config = none ↔
       includeGlobal = false ∧ getKey config.services service = none)
    ∧ (∀ m, serviceSettings service includeGlobal config = some m →
       ∀ k, getKey m k
           = firstSome (getKey ((getKey config.services service).getD []) k)
               (getKey config.global k)) := by
  constructor
  · unfold serviceSettings
    cases includeGlobal with
    | false =>
      cases hs : getKey config.services service with
      | none => simp [hasKey, hs]
      | some v => simp [hasKey, hs]
    | true => simp [hasKey]
  · intro m hm k
    unfold serviceSettings at hm
    by_cases hc : (!includeGlobal && !hasKey config.services service) = true
    · rw [if_pos hc] at hm
      cases hm
    · rw [if_neg hc] at hm
      injection hm with hm'
      rw [← hm', extend_nil, getKey_extend]

/-- Witness for C6 at concrete documents: an unconfigured service without
globals is Absent; a configured service merged with globals keeps the
service binding on conflict. -/
theorem serviceSettings_contract_witness :
    serviceSettings "github" false ⟨[("theme", JVal.str "dark")], [], []⟩ = none
    ∧ getKey (extend (extend [] [("user", JVal.str "alice")])
        [("theme", JVal.str "dark"), ("user", JVal.str "admin")]) "user"
        = some (JVal.str "alice") :=
  ⟨(serviceSettings_contract ⟨[("theme", JVal.str "dark")], [], []⟩ "github" false).1.mpr
      ⟨rfl, rfl⟩,
   ((serviceSettings_contract
        ⟨[("theme", JVal.str "dark"), ("user", JVal.str "admin")],
         [("github", [("user", JVal.str "alice")])], []⟩ "github" true).2
      (extend (extend [] [("user", JVal.str "alice")])
        [("theme", JVal.str "dark"), ("user", JVal.str "admin")]) rfl "user").trans rfl⟩

/-- C7 counterexample: a stored document whose `sources` holds a
user-defined source named `local`: `listSources` then lists the local
pseudo-source name twice, not exactly once. -/
theorem listSources_local_twice :
    (listSources none ⟨[], [], [("local", .str "urn:x")]⟩).1 = ["local", "local"]
    ∧ ¬ (listSources none ⟨[], [], [("local", .str "urn:x")]⟩).1.count "local" = 1 := by
  constructor
  · rfl
  · decide

/-- C7 amended: `listSources` returns names equal to the non-metadata keys
of `sources` followed by the local pseudo-source name, so the local name
appears exactly once whenever it is not itself a non-metadata key of
`sources` (in particular whenever `sources` is empty); current is the
override when set, nonempty and naming a configured truthy source, else
`sources.__current__` when that is a nonempty string naming a configured
truthy source, else the local pseudo-source name. -/
theorem listSources_contract (source : Option String) (config : Document) :
    (listSources source config).1
        = (config.sources.map Prod.fst).filter (fun s => !metaKey s) ++ [LOCAL]
    ∧ (LOCAL ∉ (config.sources.map Prod.fst).filter (fun s => !metaKey s) →
        (listSources source config).1.count LOCAL = 1)
    ∧ (config.sources = [] → (listSources source config).1 = [LOCAL])
    ∧ (∀ s, source = some s → s ≠ "" →
        jsTruthy ((getKey config.sources s).getD .null) = true →
        (listSources source config).2 = .str s)
    ∧ (∀ s, source = some s → s ≠ "" →
        jsTruthy ((getKey config.sources s).getD .null) = false →
        (listSources source config).2 = .str LOCAL)
    ∧ (∀ c, (source = none ∨ source = some "") →
        getKey config.sources "__current__" = some (.str c) → c ≠ "" →
        jsTruthy ((getKey config.sources c).getD .null) = true →
        (listSources source config).2 = .str c)
    ∧ ((source = none ∨ source = some "") →
        (getKey config.sources "__current__" = none ∨
          ∀ c, getKey config.sources "__current__" = some (.str c) →
            (c = "" ∨ jsTruthy ((getKey config.sources c).getD .null) = false)) →
        (listSources source config).2 = .str LOCAL) := by
  refine ⟨rfl, ?_, ?_, ?_, ?_, ?_, ?_⟩
  · intro hnmem
    show ((config.sources.map Prod.fst).filter (fun s => !metaKey s) ++ [LOCAL]).count LOCAL
        = 1
    rw [List.count_append, List.count_eq_zero.mpr hnmem]
    rfl
  · intro h0
    show ((config.sources.map Prod.fst).filter (fun s => !metaKey s) ++ [LOCAL]) = [LOCAL]
    rw [h0]
    rfl
  · intro s hs hne htr
    subst hs
    have ht : jsTruthy (.str s) = true := by simp [jsTruthy, hne]
    simp [listSources, hne, ht, htr]
  · intro s hs hne htr
    subst hs
    have ht : jsTruthy (.str s) = true := by simp [jsTruthy, hne]
    simp [listSources, hne, ht, htr]
  · intro c hsrc hcur hne htr
    have ht : jsTruthy (.str c) = true := by simp [jsTruthy, hne]
    rcases hsrc with rfl | rfl
    · simp [listSources, hcur, ht, htr]
    · simp [listSources, hcur, ht, htr]
  · intro hsrc hres
    rcases hsrc with rfl | rfl <;>
    · cases hcur : getKey config.sources "__current__" with
      | none => simp [listSources, hcur]
      | some v =>
        rcases hres with hres | hres
        · rw [hcur] at hres
          cases hres
        · cases v with
          | null => simp [listSources, hcur, jsTruthy]
          | bool b => cases b <;> simp [listSources, hcur, jsTruthy]
          | num n =>
            by_cases hz : n = 0
            · simp [listSources, hcur, jsTruthy, hz]
            · simp [listSources, hcur, jsTruthy, hz]
          | str c =>
            rcases hres c hcur with hres | hres
            · simp [listSources, hcur, hres, jsTruthy]
            · by_cases hce : c = ""
              · simp [listSources, hcur, hce, jsTruthy]
              · have ht : jsTruthy (.str c) = true := by simp [jsTruthy, hce]
                simp [listSources, hcur, ht, hres]
          | arr xs => simp [listSources, hcur, jsTruthy]
          | obj l => simp [listSources, hcur, jsTruthy]

/-- Witness for C7 at a concrete document with a metadata key, a configured
source selected by the metadata entry, and no override. -/
theorem listSources_contract_witness :
    (listSources none
        ⟨[], [], [("__current__", JVal.str "work"), ("work", JVal.str "urn:w")]⟩).1.count
      LOCAL = 1
    ∧ (listSources none
        ⟨[], [], [("__current__", JVal.str "work"), ("work", JVal.str "urn:w")]⟩).2
      = .str "work" :=
  ⟨(listSources_contract none
      ⟨[], [], [("__current__", JVal.str "work"), ("work", JVal.str "urn:w")]⟩).2.1
      (by decide),
   (listSources_contract none
      ⟨[], [], [("__current__", JVal.str "work"), ("work", JVal.str "urn:w")]⟩).2.2.2.2.2.1
      "work" (Or.inl rfl) rfl (by decide) rfl⟩

/-- C8: the canonicalizer applied before every dump is idempotent, and on
documents whose objects have duplicate-free keys (as every JS object does)
it is insensitive to the insertion order of object fields; sequence element
order is preserved and only object keys are recursively sorted. -/
theorem sort_canonical :
    (∀ v, sort (sort v) = sort v)
    ∧ (∀ v w, nodupKeys v = true → KeyPerm v w → sort v = sort w) :=
  ⟨sort_sort, fun _ _ hnd hkp => sort_keyPerm hnd hkp⟩

/-- Witness for C8: a two-field object and its key-swapped variant. -/
theorem sort_canonical_witness :
    sort (sort (JVal.obj [("b", .num 1), ("a", .num 2)]))
        = sort (JVal.obj [("b", .num 1), ("a", .num 2)])
    ∧ sort (JVal.obj [("b", .num 1), ("a", .num 2)])
        = sort (JVal.obj [("a", .num 2), ("b", .num 1)]) :=
  ⟨sort_canonical.1 (JVal.obj [("b", .num 1), ("a", .num 2)]),
   sort_canonical.2 (JVal.obj [("b", .num 1), ("a", .num 2)])
     (JVal.obj [("a", .num 2), ("b", .num 1)]) rfl
     (KeyPerm.obj
       (KeyPermFields.cons (KeyPerm.num 1)
         (KeyPermFields.cons (KeyPerm.num 2) KeyPermFields.nil))
       (List.Perm.swap ("a", JVal.num 2) ("b", JVal.num 1) []))⟩

/-- C9: evaluation of `dump` at a failing cipher.  The encrypt callback in
the source ignores its error argument, so an encryption failure does not
propagate to the caller: the dump proceeds to the file write and reports
only the write outcome, here success, and the cipher failure is lost. -/
theorem dump_swallows_cipher_failure :
    dump { stringify := fun _ => "",
           encrypt := fun _ => .error "encryption failed",
           write := fun _ => none }
      (JVal.obj [("k", JVal.str "v")]) = (none : Option String) := rfl

/-- C10: the cache is populated only by a successful decrypt-and-parse: an
absent file or an unreadable file leaves the cache empty (the synthesized
empty document is never cached), so each load with an empty cache re-reads
the file; once a load has decrypted and parsed the file, the cache holds
the parsed document, and every subsequent load with caching enabled returns
exactly the cached document without reading. -/
theorem load_cache_policy (cacheEnabled : Bool) (env : LoadEnv) :
    (env.file = none → load cacheEnabled none env = (.ok emptyDoc, none))
    ∧ (∀ content, env.file = some content → env.decrypt content = none →
        load cacheEnabled none env = (.error .storeUnreadable, none))
    ∧ (∀ content plaintext, env.file = some content →
        env.decrypt content = some plaintext → env.parse plaintext = none →
        load cacheEnabled none env = (.error .storeUnreadable, none))
    ∧ (∀ content plaintext d, env.file = some content →
        env.decrypt content = some plaintext → env.parse plaintext = some d →
        load cacheEnabled none env = (.ok d, some d))
    ∧ (∀ d env2, load true (some d) env2 = (.ok d, some d)) := by
  refine ⟨?_, ?_, ?_, ?_, ?_⟩
  · intro hfile
    cases cacheEnabled <;> simp [load, hfile, emptyDoc]
  · intro content hfile hdec
    cases cacheEnabled <;> simp [load, hfile, hdec]
  · intro content pt hfile hdec hparse
    cases cacheEnabled <;> simp [load, hfile, hdec, hparse]
  · intro content pt d hfile hdec hparse
    cases cacheEnabled <;> simp [load, hfile, hdec, hparse]
  · intro d env2
    rfl

/-- Witness for C10 at concrete environments: an absent file leaves the
cache empty, a successful parse fills it, and a cache hit returns the
cached document. -/
theorem load_cache_policy_witness :
    load true none ⟨fun _ => none, fun _ => none, none⟩ = (.ok emptyDoc, none)
    ∧ load true none
        ⟨fun _ => some "pt", fun _ => some ⟨[("k", JVal.str "v")], [], []⟩, some "ct"⟩
        = (.ok ⟨[("k", JVal.str "v")], [], []⟩, some ⟨[("k", JVal.str "v")], [], []⟩)
    ∧ load true (some ⟨[("k", JVal.str "v")], [], []⟩) ⟨fun _ => none, fun _ => none, none⟩
        = (.ok ⟨[("k", JVal.str "v")], [], []⟩, some ⟨[("k", JVal.str "v")], [], []⟩) :=
  ⟨(load_cache_policy true ⟨fun _ => none, fun _ => none, none⟩).1 rfl,
   (load_cache_policy true
      ⟨fun _ => some "pt", fun _ => some ⟨[("k", JVal.str "v")], [], []⟩, some "ct"⟩).2.2.2.1
      "ct" "pt" ⟨[("k", JVal.str "v")], [], []⟩ rfl rfl rfl,
   (load_cache_policy true ⟨fun _ => none, fun _ => none, none⟩).2.2.2.2
      ⟨[("k", JVal.str "v")], [], []⟩ ⟨fun _ => none, fun _ => none, none⟩⟩

end LocalStore
